import Mathlib

/-!
Verification of the prime-searcher program (src/main.cpp).

The program computes all primes in [1, maxNumber] with two parallel strategies:
Scheme A partitions the numeric range across workers, each running the standalone
trial-division test `isPrimeSingleThread`; Scheme B tests one candidate at a time,
partitioning its odd-divisor search space across workers that share a composite
flag.  Results are either printed immediately or collected and sorted ("deferred").

This file shallowly embeds the arithmetic and partitioning logic of the program:
C++ `long` values are modelled as `Int` (or `Nat` where the source guarantees
non-negativity), loops become recursive functions or explicit lists, the
fallible call `isPrimeByDivisorThreads` (which divides by `numThreads` without
a zero check) returns `Option`, and the concurrent flag protocol of
`workerCheckDivRange` is given a small-step transition relation.
-/

namespace PrimeSearcher

/-! ### The truncated square root (src/main.cpp lines 73 and 144)

The source computes `static_cast<long>(std::sqrt(static_cast<long double>(n)))`.
For every admissible `long` input the 64-bit-mantissa `long double` square root
truncates to exactly the integer square root `Nat.sqrt n` (the rounding error of
the correctly rounded square root is below half an ulp away from the nearest
integer for all `n < 2^63`).  We model it by an executable floor square root:
`longSqrt n` counts the positive integers whose square is at most `n`. -/
def longSqrt (n : Nat) : Nat :=
  (List.range (n + 1)).countP (fun k => decide ((k + 1) * (k + 1) ≤ n))

theorem countP_range_lt (m N : Nat) :
    (List.range N).countP (fun k => decide (k < m)) = min m N := by
  induction N with
  | zero => simp
  | succ N ih =>
    rw [List.range_succ, List.countP_append, ih]
    by_cases h : N < m
    · simp [h]; omega
    · simp [h]; omega

theorem longSqrt_eq_sqrt (n : Nat) : longSqrt n = Nat.sqrt n := by
  unfold longSqrt
  have hcongr : ∀ k ∈ List.range (n + 1),
      ((decide ((k + 1) * (k + 1) ≤ n)) = true ↔ (decide (k < Nat.sqrt n)) = true) := by
    intro k _
    simp only [decide_eq_true_eq]
    constructor
    · intro h
      exact Nat.lt_of_succ_le (Nat.le_sqrt.2 h)
    · intro h
      exact Nat.le_sqrt.1 (Nat.succ_le_of_lt h)
  rw [List.countP_congr hcongr, countP_range_lt]
  have := Nat.sqrt_le_self n
  omega

/-! ### The standalone primality oracle (src/main.cpp lines 67-80)

`trialLoop n limit d` models the loop `for (long d = 3; d <= limit; d += 2)
if (n % d == 0) return false; return true` starting at divisor `d`. -/
def trialLoop (n limit d : Nat) : Bool :=
  if d ≤ limit then
    if n % d = 0 then false
    else trialLoop n limit (d + 2)
  else true
termination_by limit + 1 - d
decreasing_by omega

theorem trialLoop_eq_false_aux (n limit : Nat) :
    ∀ fuel d, limit + 1 - d ≤ fuel →
      (trialLoop n limit d = false ↔
        ∃ k, d ≤ k ∧ k ≤ limit ∧ (k - d) % 2 = 0 ∧ n % k = 0) := by
  intro fuel
  induction fuel with
  | zero =>
    intro d hfuel
    rw [trialLoop, if_neg (by omega)]
    simp only [Bool.true_eq_false, false_iff]
    rintro ⟨k, h1, h2, _, _⟩
    omega
  | succ fuel ih =>
    intro d hfuel
    rw [trialLoop]
    by_cases hd : d ≤ limit
    · rw [if_pos hd]
      by_cases hmod : n % d = 0
      · rw [if_pos hmod]
        simp only [true_iff]
        exact ⟨d, le_refl d, hd, by omega, hmod⟩
      · rw [if_neg hmod, ih (d + 2) (by omega)]
        constructor
        · rintro ⟨k, h1, h2, h3, h4⟩
          exact ⟨k, by omega, h2, by omega, h4⟩
        · rintro ⟨k, h1, h2, h3, h4⟩
          refine ⟨k, by_contra fun hc => ?_, h2, by omega, h4⟩
          have hk : k = d ∨ k = d + 1 := by omega
          rcases hk with rfl | rfl
          · exact hmod h4
          · omega
    · rw [if_neg hd]
      simp only [Bool.true_eq_false, false_iff]
      rintro ⟨k, h1, h2, _, _⟩
      omega

theorem trialLoop_eq_false_iff (n limit d : Nat) :
    trialLoop n limit d = false ↔
      ∃ k, d ≤ k ∧ k ≤ limit ∧ (k - d) % 2 = 0 ∧ n % k = 0 :=
  trialLoop_eq_false_aux n limit (limit + 1 - d) d (le_refl _)

/-- Model of `isPrimeSingleThread` (src/main.cpp lines 67-80) over the
mathematical integers standing for C++ `long`:
`n < 2` is rejected, `n == 2` accepted, even `n` rejected, and otherwise `n`
is trial-divided by the odd integers from 3 up to the truncated square root.
The function is pure and total. -/
def isPrimeSingleThread (n : Int) : Bool :=
  if n < 2 then false
  else if n = 2 then true
  else if n % 2 = 0 then false
  else trialLoop n.toNat (longSqrt n.toNat) 3

theorem odd_cond_iff (k : Nat) (hk : 3 ≤ k) : (k - 3) % 2 = 0 ↔ k % 2 = 1 := by
  omega

/-- Trial division by odd numbers 3..√n decides primality of odd n ≥ 3. -/
theorem trialLoop_prime (n : Nat) (h3 : 3 ≤ n) (hodd : n % 2 = 1) :
    trialLoop n (Nat.sqrt n) 3 = true ↔ Nat.Prime n := by
  constructor
  · intro htrue
    rw [Nat.prime_def_le_sqrt]
    refine ⟨by omega, fun m hm2 hmsqrt hdvd => ?_⟩
    have hmod : n % m = 0 := Nat.dvd_iff_mod_eq_zero.1 hdvd
    have hmodd : m % 2 = 1 := by
      rcases Nat.even_or_odd m with he | ho
      · exfalso
        have h2m : 2 ∣ m := he.two_dvd
        have : 2 ∣ n := h2m.trans hdvd
        omega
      · exact Nat.odd_iff.1 ho
    have hm3 : 3 ≤ m := by omega
    have hfalse : trialLoop n (Nat.sqrt n) 3 = false :=
      (trialLoop_eq_false_iff n (Nat.sqrt n) 3).2 ⟨m, hm3, hmsqrt, by omega, hmod⟩
    rw [htrue] at hfalse
    exact absurd hfalse (by simp)
  · intro hp
    by_contra hne
    have hfalse : trialLoop n (Nat.sqrt n) 3 = false := by
      cases h : trialLoop n (Nat.sqrt n) 3
      · rfl
      · exact absurd h hne
    obtain ⟨k, hk3, hksqrt, _, hkmod⟩ := (trialLoop_eq_false_iff n (Nat.sqrt n) 3).1 hfalse
    have hdvd : k ∣ n := Nat.dvd_iff_mod_eq_zero.2 hkmod
    rcases (Nat.Prime.eq_one_or_self_of_dvd hp k hdvd) with h1 | hself
    · omega
    · have : Nat.sqrt n < n := Nat.sqrt_lt_self (by omega)
      omega

/-- Correctness of the standalone oracle: it accepts exactly the integers that
are (natural-number) primes. -/
theorem isPrimeSingleThread_iff (n : Int) :
    isPrimeSingleThread n = true ↔ 2 ≤ n ∧ Nat.Prime n.toNat := by
  unfold isPrimeSingleThread
  by_cases h1 : n < 2
  · rw [if_pos h1]
    simp only [Bool.false_eq_true, false_iff]
    rintro ⟨h2, _⟩; omega
  · rw [if_neg h1]
    by_cases h2 : n = 2
    · subst h2
      simp [Nat.prime_two]
    · rw [if_neg h2]
      by_cases h3 : n % 2 = 0
      · rw [if_pos h3]
        simp only [Bool.false_eq_true, false_iff]
        rintro ⟨hge, hp⟩
        have hn3 : 3 ≤ n := by omega
        have heven : n.toNat % 2 = 0 := by omega
        have h2dvd : 2 ∣ n.toNat := Nat.dvd_iff_mod_eq_zero.2 heven
        rcases (Nat.Prime.eq_one_or_self_of_dvd hp 2 h2dvd) with hx | hx <;> omega
      · rw [if_neg h3, longSqrt_eq_sqrt]
        have hn3 : 3 ≤ n := by omega
        have htn : 3 ≤ n.toNat := by omega
        have hodd : n.toNat % 2 = 1 := by omega
        rw [trialLoop_prime n.toNat htn hodd]
        constructor
        · intro hp; exact ⟨by omega, hp⟩
        · rintro ⟨_, hp⟩; exact hp

/-! ### Lists of consecutive integers

`rangeList s e` is the closed integer interval [s, e] as a list, the iteration
space of the C++ loops `for (long x = s; x <= e; ++x)`. -/
def rangeList (s e : Nat) : List Nat :=
  List.range' s (e + 1 - s)

theorem mem_rangeList (x s e : Nat) : x ∈ rangeList s e ↔ s ≤ x ∧ x ≤ e := by
  unfold rangeList
  rw [List.mem_range']
  constructor
  · rintro ⟨i, hi, rfl⟩; omega
  · rintro ⟨h1, h2⟩; exact ⟨x - s, by omega, by omega⟩

theorem nodup_rangeList (s e : Nat) : (rangeList s e).Nodup :=
  List.nodup_range' s (e + 1 - s)

/-! ### Scheme B: the divisor list (src/main.cpp lines 152-155)

The loop `for (long d = 3; d <= limit; d += 2) divisors.push_back(d);`
produces exactly the odd integers 3, 5, 7, ... up to `limit`, i.e. the
arithmetic progression starting at 3 with step 2 and (limit+1)/2 - 1 terms. -/
def buildDivisors (limit : Nat) : List Nat :=
  List.range' 3 ((limit + 1) / 2 - 1) 2

theorem mem_buildDivisors (x limit : Nat) :
    x ∈ buildDivisors limit ↔ 3 ≤ x ∧ x ≤ limit ∧ x % 2 = 1 := by
  unfold buildDivisors
  rw [List.mem_range']
  constructor
  · rintro ⟨i, hi, rfl⟩; omega
  · rintro ⟨h1, h2, h3⟩; exact ⟨(x - 3) / 2, by omega, by omega⟩

theorem length_buildDivisors (limit : Nat) :
    (buildDivisors limit).length = (limit + 1) / 2 - 1 := by
  rw [buildDivisors, List.length_range']

theorem getD_buildDivisors (limit i : Nat) (hi : i < (buildDivisors limit).length) :
    (buildDivisors limit).getD i 0 = 3 + 2 * i := by
  rw [List.getD_eq_getElem?_getD, List.getElem?_eq_getElem hi]
  simp [buildDivisors, List.getElem_range']

/-- Net effect of one worker `workerCheckDivRange` (src/main.cpp lines 118-136)
on the shared flag, executed to completion in isolation: the worker walks every
integer `d` in `[startDiv, endDiv]` (step 1, so also the even ones lying between
the odd entries of its chunk) and raises the flag exactly when some `d` divides
`n`.  The interleaved behaviour with the early-exit protocol is modelled
separately by `DivStep` below; the final flag of a joined invocation is the
disjunction of these per-worker results because the flag is only ever raised. -/
def workerFindsDiv (n startDiv endDiv : Nat) : Bool :=
  (rangeList startDiv endDiv).any (fun d => n % d = 0)

theorem workerFindsDiv_iff (n s e : Nat) :
    workerFindsDiv n s e = true ↔ ∃ d, s ≤ d ∧ d ≤ e ∧ n % d = 0 := by
  unfold workerFindsDiv
  rw [List.any_eq_true]
  constructor
  · rintro ⟨d, hd, hmod⟩
    rw [mem_rangeList] at hd
    exact ⟨d, hd.1, hd.2, by simpa using hmod⟩
  · rintro ⟨d, h1, h2, h3⟩
    exact ⟨d, (mem_rangeList d s e).2 ⟨h1, h2⟩, by simpa using h3⟩

/-! ### Scheme B: the chunking loop (src/main.cpp lines 171-191)

`spawnChunks totalDivs chunkSize numThreads t startIndex` is the list of
(startIndex, endIndex) pairs of divisor-list indices for which the loop
`for (long t = 0; t < numThreads; ++t)` spawns a worker, beginning at
iteration `t`.  The last iteration takes `totalDivs - 1` as its end index and
the loop breaks if `startIndex > totalDivs - 1`. -/
def chunkEnd (totalDivs chunkSize numThreads t startIndex : Nat) : Nat :=
  if t = numThreads - 1 then totalDivs - 1 else startIndex + chunkSize - 1

def spawnChunks (totalDivs chunkSize numThreads t startIndex : Nat) : List (Nat × Nat) :=
  if t < numThreads then
    if startIndex > totalDivs - 1 then []
    else
      (startIndex, chunkEnd totalDivs chunkSize numThreads t startIndex) ::
        spawnChunks totalDivs chunkSize numThreads (t + 1)
          (chunkEnd totalDivs chunkSize numThreads t startIndex + 1)
  else []
termination_by numThreads - t
decreasing_by omega

/-- Chunk layout of one `isPrimeByDivisorThreads` invocation
(src/main.cpp lines 161-172): `chunkSize = totalDivs / numThreads` with C++
truncating division; a zero chunk size collapses the call to a single worker
covering the whole divisor list.  `numThreads = 0` is excluded by the caller
(the division would be undefined behaviour, see `isPrimeByDivisorThreads`).
A negative `numThreads` with nonzero chunk size leaves the spawn loop empty,
which `spawnChunks _ _ 0 0 _` faithfully renders. -/
def divisorChunks (totalDivs : Nat) (numThreads : Int) : List (Nat × Nat) :=
  if Int.tdiv totalDivs numThreads = 0 then spawnChunks totalDivs totalDivs 1 0 0
  else spawnChunks totalDivs (Int.tdiv totalDivs numThreads).toNat numThreads.toNat 0 0

/-- Model of `isPrimeByDivisorThreads` (src/main.cpp lines 138-198).
The verdict is `!compositeFound` after all workers joined; since the flag is
only ever raised, the final flag is the disjunction over the spawned chunks of
the per-worker scan results.  The source has no guard for a non-positive
thread count, and `none` models its two abnormal ends: the division by zero
in `chunkSize = totalDivs / numThreads` (undefined behaviour) reached when
`numThreads = 0` and the divisor list is non-empty, and the uncaught
`std::length_error` thrown by `threads.reserve(numThreads)` (line 169) when
the thread count is still negative after the collapse check — a negative
`long` converts to a `size_t` above `max_size()`.  When `chunkSize == 0` the
collapse has already reset `numThreads` to 1, so `reserve` succeeds even for
a negative input; hence the reserve failure occurs exactly when
`numThreads < 0` and the truncating division is nonzero. -/
def isPrimeByDivisorThreads (n : Int) (numThreads : Int) : Option Bool :=
  if n < 2 then some false
  else if n = 2 then some true
  else if n % 2 = 0 then some false
  else if longSqrt n.toNat ≤ 2 then some true
  else if (buildDivisors (longSqrt n.toNat)).isEmpty then some true
  else if numThreads = 0 then none
  else if numThreads < 0 ∧
      Int.tdiv ((buildDivisors (longSqrt n.toNat)).length : Int) numThreads ≠ 0 then none
  else
    some (!((divisorChunks (buildDivisors (longSqrt n.toNat)).length numThreads).any fun c =>
      workerFindsDiv n.toNat ((buildDivisors (longSqrt n.toNat)).getD c.1 0)
        ((buildDivisors (longSqrt n.toNat)).getD c.2 0)))

/-! ### Scheme B driver (src/main.cpp lines 200-220) -/

/-- Sequential loop of `runSchemeB` from candidate `n` up to `maxNumber`,
returning the list of candidates judged prime, in discovery order (this is both
the immediate-mode print order and the deferred-mode insertion order, since the
per-candidate workers are joined before the verdict is consumed).  A `none`
propagates the undefined behaviour of `isPrimeByDivisorThreads`. -/
def runSchemeBLoop (numThreads : Int) (maxNumber n : Nat) : Option (List Nat) :=
  if n ≤ maxNumber then
    match isPrimeByDivisorThreads n numThreads with
    | none => none
    | some true => (runSchemeBLoop numThreads maxNumber (n + 1)).map (n :: ·)
    | some false => runSchemeBLoop numThreads maxNumber (n + 1)
  else some []
termination_by maxNumber + 1 - n
decreasing_by omega

def runSchemeB (maxNumber : Nat) (numThreads : Int) : Option (List Nat) :=
  runSchemeBLoop numThreads maxNumber 2

/-! ### Scheme A (src/main.cpp lines 82-105 and 261-279) -/

/-- The chunking loop of `main` for Scheme A (src/main.cpp lines 264-278),
beginning at iteration `i` with current start value `start`: each worker `i`
gets the closed range `[start, start + rangeSize - 1]`, except the last, which
gets `[start, maxNumber]`. -/
def schemeALoop (maxNumber rangeSize numThreads i start : Nat) : List (Nat × Nat) :=
  if i < numThreads then
    let e := if i = numThreads - 1 then maxNumber else start + rangeSize - 1
    (start, e) :: schemeALoop maxNumber rangeSize numThreads (i + 1) (e + 1)
  else []
termination_by numThreads - i
decreasing_by omega

/-- The complete list of Scheme A work assignments: `rangeSize = maxNumber /
numThreads` (truncating division) and the range [1, maxNumber] is carved up
from 1. -/
def schemeAAssignments (maxNumber numThreads : Nat) : List (Nat × Nat) :=
  schemeALoop maxNumber (maxNumber / numThreads) numThreads 0 1

/-- Primes reported by one Scheme A worker `workerRangeSchemeA`
(src/main.cpp lines 82-105): every integer of its assigned range that passes
`isPrimeSingleThread`, in iteration order.  In immediate mode each element is
printed on discovery; in deferred mode it is appended to the shared
collection. -/
def workerRangeSchemeA (startNum endNum : Nat) : List Nat :=
  (rangeList startNum endNum).filter (fun n => isPrimeSingleThread n)

/-- All primes reported by a Scheme A run, worker by worker.  As a multiset
this is exactly what either sink receives; the true interleaving of a run is
some permutation of it (the workers share no state except the sink). -/
def schemeAPrimes (maxNumber numThreads : Nat) : List Nat :=
  (schemeAAssignments maxNumber numThreads).flatMap
    (fun c => workerRangeSchemeA c.1 c.2)

/-! ### The deferred sink (src/main.cpp lines 297-305)

After all workers join, `std::sort` orders the collected primes ascending and
they are printed once.  We model the sort with insertion sort. -/
def deferredOutput (collected : List Nat) : List Nat :=
  List.insertionSort (· ≤ ·) collected

def schemeADeferred (maxNumber numThreads : Nat) : List Nat :=
  deferredOutput (schemeAPrimes maxNumber numThreads)

def schemeBDeferred (maxNumber : Nat) (numThreads : Int) : Option (List Nat) :=
  (runSchemeB maxNumber numThreads).map deferredOutput

/-! ### Properties of the chunking loops -/

/-- Loop invariant of the Scheme B chunking loop: starting at iteration `t`
with `startIndex = t * chunkSize`, given a positive chunk size with
`numThreads * chunkSize ≤ totalDivs`, the loop spawns exactly one worker per
remaining iteration (the break guard never fires), the produced index chunks
are well-formed, within bounds, pairwise disjoint, and cover every index from
`startIndex` to `totalDivs - 1`. -/
theorem spawnChunks_spec (L cs W : Nat) (hcs : 1 ≤ cs) (hWcs : W * cs ≤ L) :
    ∀ fuel t s, W - t ≤ fuel → t < W → s = t * cs →
      ((spawnChunks L cs W t s).length = W - t) ∧
      (∀ c ∈ spawnChunks L cs W t s, s ≤ c.1 ∧ c.1 ≤ c.2 ∧ c.2 ≤ L - 1) ∧
      (∀ j, s ≤ j → j ≤ L - 1 → ∃ c ∈ spawnChunks L cs W t s, c.1 ≤ j ∧ j ≤ c.2) ∧
      List.Pairwise (fun c c' : Nat × Nat => c.2 < c'.1) (spawnChunks L cs W t s) := by
  intro fuel
  induction fuel with
  | zero => intro t s h1 h2 _; omega
  | succ fuel ih =>
    intro t s hfuel htW hs
    have hW1 : 1 ≤ W := by omega
    have hposL : 1 ≤ W * cs := Nat.mul_pos (by omega) (by omega)
    have hts : t * cs ≤ (W - 1) * cs := Nat.mul_le_mul_right cs (by omega)
    have hw1 : (W - 1) * cs + cs = W * cs := by
      have hWe : (W - 1) + 1 = W := by omega
      calc (W - 1) * cs + cs = ((W - 1) + 1) * cs := (Nat.succ_mul _ _).symm
        _ = W * cs := by rw [hWe]
    have hguard : ¬ (s > L - 1) := by omega
    by_cases hlast : t = W - 1
    · have he : chunkEnd L cs W t s = L - 1 := if_pos hlast
      have hnW : ¬ (t + 1 < W) := by omega
      have hnil : spawnChunks L cs W (t + 1) (L - 1 + 1) = [] := by
        rw [spawnChunks, if_neg hnW]
      rw [spawnChunks, if_pos htW, if_neg hguard, he, hnil]
      refine ⟨by simp only [List.length_singleton]; omega, ?_, ?_, ?_⟩
      · intro c hc
        simp only [List.mem_singleton] at hc
        subst hc
        refine ⟨le_refl s, by omega, le_refl _⟩
      · intro j hj1 hj2
        exact ⟨(s, L - 1), List.mem_singleton_self _, hj1, hj2⟩
      · simp
    · have he : chunkEnd L cs W t s = s + cs - 1 := if_neg hlast
      have hts1 : (t + 1) * cs ≤ (W - 1) * cs := Nat.mul_le_mul_right cs (by omega)
      have hsucc : s + cs = (t + 1) * cs := by rw [Nat.succ_mul, hs]
      have hrec := ih (t + 1) (s + cs) (by omega) (by omega) hsucc
      have hstep : s + cs - 1 + 1 = s + cs := by omega
      rw [spawnChunks, if_pos htW, if_neg hguard, he, hstep]
      obtain ⟨hlen, hbounds, hcover, hpair⟩ := hrec
      have hend : s + cs - 1 ≤ L - 1 := by omega
      refine ⟨?_, ?_, ?_, ?_⟩
      · simp only [List.length_cons, hlen]; omega
      · intro c hc
        rcases List.mem_cons.1 hc with rfl | hc
        · exact ⟨le_refl s, by omega, hend⟩
        · have := hbounds c hc
          omega
      · intro j hj1 hj2
        by_cases hj : j ≤ s + cs - 1
        · exact ⟨(s, s + cs - 1), List.mem_cons_self _ _, hj1, hj⟩
        · obtain ⟨c, hcmem, hc1, hc2⟩ := hcover j (by omega) hj2
          exact ⟨c, List.mem_cons_of_mem _ hcmem, hc1, hc2⟩
      · refine List.Pairwise.cons ?_ hpair
        intro c hc
        have := hbounds c hc
        omega

theorem tdiv_coe_coe (L : Nat) (W : Int) (hW : 1 ≤ W) :
    Int.tdiv (L : Int) W = ((L / W.toNat : Nat) : Int) := by
  have hWn : ((W.toNat : Nat) : Int) = W := Int.toNat_of_nonneg (by omega)
  calc Int.tdiv (L : Int) W = Int.tdiv (L : Int) ((W.toNat : Nat) : Int) := by rw [hWn]
    _ = ((L / W.toNat : Nat) : Int) := (Int.ofNat_tdiv L W.toNat).symm

/-- Combined properties of the chunk list of one divisor-partitioning
invocation, for a positive worker budget and a non-empty divisor list:
well-formed in-bounds chunks, full coverage of the index space, pairwise
disjointness; moreover the exact collapse behaviour of the source
(`chunkSize == 0` forces a single worker over the whole list) and the exact
worker count otherwise. -/
theorem divisorChunks_cover (L : Nat) (W : Int) (hL : 1 ≤ L) (hW : 1 ≤ W) :
    (∀ c ∈ divisorChunks L W, c.1 ≤ c.2 ∧ c.2 ≤ L - 1) ∧
    (∀ j, j ≤ L - 1 → ∃ c ∈ divisorChunks L W, c.1 ≤ j ∧ j ≤ c.2) ∧
    List.Pairwise (fun c c' : Nat × Nat => c.2 < c'.1) (divisorChunks L W) ∧
    (L / W.toNat = 0 → divisorChunks L W = [(0, L - 1)]) ∧
    (L / W.toNat ≠ 0 → (divisorChunks L W).length = W.toNat) := by
  have htd := tdiv_coe_coe L W hW
  by_cases hz : L / W.toNat = 0
  · have hone : spawnChunks L L 1 0 0 = [(0, L - 1)] := by
      have hend : chunkEnd L L 1 0 0 = L - 1 := if_pos rfl
      have hn11 : ¬ (1 < 1) := by omega
      have hnil : spawnChunks L L 1 1 (L - 1 + 1) = [] := by
        rw [spawnChunks, if_neg hn11]
      have h01 : (0 : Nat) < 1 := by omega
      have hg : ¬ ((0 : Nat) > L - 1) := by omega
      rw [spawnChunks, if_pos h01, if_neg hg, hend, hnil]
    have hchunks : divisorChunks L W = [(0, L - 1)] := by
      unfold divisorChunks
      rw [htd, hz]
      simp only [Nat.cast_zero, if_pos rfl, if_true]
      exact hone
    rw [hchunks]
    refine ⟨?_, ?_, ?_, fun _ => rfl, fun h => absurd hz h⟩
    · intro c hc
      simp only [List.mem_singleton] at hc
      subst hc
      exact ⟨by omega, le_refl _⟩
    · intro j hj
      exact ⟨(0, L - 1), List.mem_singleton_self _, by omega, hj⟩
    · simp
  · have hcs : 1 ≤ L / W.toNat := Nat.one_le_iff_ne_zero.2 hz
    have hchunks : divisorChunks L W = spawnChunks L (L / W.toNat) W.toNat 0 0 := by
      unfold divisorChunks
      rw [htd]
      have hnz : ¬ (((L / W.toNat : Nat) : Int) = 0) := by exact_mod_cast hz
      rw [if_neg hnz, Int.toNat_ofNat]
    have hWcs : W.toNat * (L / W.toNat) ≤ L := by
      rw [Nat.mul_comm]
      exact Nat.div_mul_le_self L W.toNat
    have hW1 : 1 ≤ W.toNat := by omega
    have hspec := spawnChunks_spec L (L / W.toNat) W.toNat hcs hWcs W.toNat 0 0
      (by omega) (by omega) (by omega)
    obtain ⟨hlen, hbounds, hcover, hpair⟩ := hspec
    rw [hchunks]
    refine ⟨?_, ?_, hpair, fun h => absurd h hz, fun _ => by rw [hlen]; omega⟩
    · intro c hc
      have := hbounds c hc
      exact ⟨this.2.1, this.2.2⟩
    · intro j hj
      exact hcover j (by omega) hj

theorem odd_of_dvd_odd (n d : Nat) (hn : n % 2 = 1) (h : d ∣ n) : d % 2 = 1 := by
  by_contra hc
  have h2 : 2 ∣ d := by omega
  have : 2 ∣ n := h2.trans h
  omega

/-- The disjunction of the spawned workers' scan results detects exactly the
odd divisors of an odd candidate in [3, limit]. -/
theorem divisorAny_iff (n limit : Nat) (hodd : n % 2 = 1) (hlim : 3 ≤ limit)
    (W : Int) (hW : 1 ≤ W) :
    ((divisorChunks (buildDivisors limit).length W).any fun c =>
        workerFindsDiv n ((buildDivisors limit).getD c.1 0)
          ((buildDivisors limit).getD c.2 0)) = true
      ↔ ∃ k, 3 ≤ k ∧ k ≤ limit ∧ k % 2 = 1 ∧ n % k = 0 := by
  have hlen : (buildDivisors limit).length = (limit + 1) / 2 - 1 :=
    length_buildDivisors limit
  have hL : 1 ≤ (buildDivisors limit).length := by omega
  obtain ⟨hbounds, hcover, _, _, _⟩ := divisorChunks_cover (buildDivisors limit).length W hL hW
  rw [List.any_eq_true]
  constructor
  · rintro ⟨c, hc, hfind⟩
    obtain ⟨d, hd1, hd2, hd3⟩ := (workerFindsDiv_iff n _ _).1 hfind
    obtain ⟨hc12, hc2L⟩ := hbounds c hc
    have h1 : (buildDivisors limit).getD c.1 0 = 3 + 2 * c.1 :=
      getD_buildDivisors limit c.1 (by omega)
    have h2 : (buildDivisors limit).getD c.2 0 = 3 + 2 * c.2 :=
      getD_buildDivisors limit c.2 (by omega)
    rw [h1] at hd1
    rw [h2] at hd2
    have hdvd : d ∣ n := Nat.dvd_iff_mod_eq_zero.2 hd3
    have hdodd : d % 2 = 1 := odd_of_dvd_odd n d hodd hdvd
    exact ⟨d, by omega, by omega, hdodd, hd3⟩
  · rintro ⟨k, hk3, hklim, hkodd, hkmod⟩
    have hkmem : k ∈ buildDivisors limit := (mem_buildDivisors k limit).2 ⟨hk3, hklim, hkodd⟩
    obtain ⟨i, hilen, hik⟩ := List.mem_iff_getElem.1 hkmem
    have higetD : (buildDivisors limit).getD i 0 = k := by
      rw [List.getD_eq_getElem?_getD, List.getElem?_eq_getElem hilen, hik]
      rfl
    have hifor : (buildDivisors limit).getD i 0 = 3 + 2 * i :=
      getD_buildDivisors limit i hilen
    obtain ⟨c, hc, hci1, hci2⟩ := hcover i (by omega)
    obtain ⟨hc12, hc2L⟩ := hbounds c hc
    have h1 : (buildDivisors limit).getD c.1 0 = 3 + 2 * c.1 :=
      getD_buildDivisors limit c.1 (by omega)
    have h2 : (buildDivisors limit).getD c.2 0 = 3 + 2 * c.2 :=
      getD_buildDivisors limit c.2 (by omega)
    refine ⟨c, hc, (workerFindsDiv_iff n _ _).2 ⟨k, ?_, ?_, hkmod⟩⟩
    · rw [h1]; omega
    · rw [h2]; omega

/-- Refinement: for every positive worker budget the cooperative divisor
partitioner returns (without undefined behaviour) exactly the standalone
oracle's verdict. -/
theorem isPrimeByDivisorThreads_eq (n : Nat) (W : Int) (hW : 1 ≤ W) :
    isPrimeByDivisorThreads (n : Int) W = some (isPrimeSingleThread (n : Int)) := by
  unfold isPrimeByDivisorThreads isPrimeSingleThread
  by_cases h1 : (n : Int) < 2
  · rw [if_pos h1, if_pos h1]
  · rw [if_neg h1, if_neg h1]
    by_cases h2 : (n : Int) = 2
    · rw [if_pos h2, if_pos h2]
    · rw [if_neg h2, if_neg h2]
      by_cases h3 : (n : Int) % 2 = 0
      · rw [if_pos h3, if_pos h3]
      · rw [if_neg h3, if_neg h3]
        by_cases h4 : longSqrt ((n : Int).toNat) ≤ 2
        · rw [if_pos h4]
          have hloop : trialLoop (n : Int).toNat (longSqrt (n : Int).toNat) 3 = true := by
            rw [trialLoop, if_neg (by omega)]
          rw [hloop]
        · rw [if_neg h4]
          have hlim3 : 3 ≤ longSqrt ((n : Int).toNat) := by omega
          have hlenpos : 1 ≤ (buildDivisors (longSqrt (n : Int).toNat)).length := by
            rw [length_buildDivisors]; omega
          have hne : ¬ ((buildDivisors (longSqrt (n : Int).toNat)).isEmpty = true) := by
            intro hempty
            rw [List.isEmpty_iff] at hempty
            rw [hempty] at hlenpos
            simp at hlenpos
          rw [if_neg hne]
          have hW0 : ¬ (W = 0) := by omega
          rw [if_neg hW0]
          have hWneg : ¬ (W < 0 ∧
              Int.tdiv ((buildDivisors (longSqrt ((n : Int).toNat))).length : Int) W ≠ 0) := by
            rintro ⟨hlt, _⟩
            omega
          rw [if_neg hWneg]
          have hodd : (n : Int).toNat % 2 = 1 := by omega
          have hany := divisorAny_iff ((n : Int).toNat) (longSqrt ((n : Int).toNat))
            hodd hlim3 W hW
          have htr := trialLoop_eq_false_iff ((n : Int).toNat) (longSqrt ((n : Int).toNat)) 3
          cases hcase : trialLoop ((n : Int).toNat) (longSqrt ((n : Int).toNat)) 3 with
          | false =>
            obtain ⟨k, hk1, hk2, hk3, hk4⟩ := htr.1 hcase
            have hT := hany.2 ⟨k, hk1, hk2, by omega, hk4⟩
            rw [hT]
            rfl
          | true =>
            have hF : ((divisorChunks (buildDivisors (longSqrt ((n : Int).toNat))).length W).any
                fun c => workerFindsDiv (n : Int).toNat
                  ((buildDivisors (longSqrt ((n : Int).toNat))).getD c.1 0)
                  ((buildDivisors (longSqrt ((n : Int).toNat))).getD c.2 0)) = false := by
              cases hh : ((divisorChunks (buildDivisors (longSqrt ((n : Int).toNat))).length W).any
                  fun c => workerFindsDiv (n : Int).toNat
                    ((buildDivisors (longSqrt ((n : Int).toNat))).getD c.1 0)
                    ((buildDivisors (longSqrt ((n : Int).toNat))).getD c.2 0)) with
              | false => rfl
              | true =>
                obtain ⟨k, hka, hkb, hkc, hkd⟩ := hany.1 hh
                have hcontra : trialLoop ((n : Int).toNat) (longSqrt ((n : Int).toNat)) 3 = false :=
                  htr.2 ⟨k, hka, hkb, by omega, hkd⟩
                rw [hcase] at hcontra
                exact Bool.noConfusion hcontra
            rw [hF]
            rfl

theorem rangeList_cons (n N : Nat) (hn : n ≤ N) :
    rangeList n N = n :: rangeList (n + 1) N := by
  unfold rangeList
  have h1 : N + 1 - n = (N - n) + 1 := by omega
  have h2 : N + 1 - (n + 1) = N - n := by omega
  rw [h1, h2, List.range'_succ]

/-- Closed form of the Scheme B driver loop: with a positive worker budget it
never hits the division by zero and returns the candidates of [n, maxNumber]
accepted by the standalone oracle, in ascending order. -/
theorem runSchemeBLoop_eq (W : Int) (hW : 1 ≤ W) (N : Nat) :
    ∀ fuel n, N + 1 - n ≤ fuel →
      runSchemeBLoop W N n =
        some ((rangeList n N).filter (fun k : Nat => isPrimeSingleThread (k : Int))) := by
  intro fuel
  induction fuel with
  | zero =>
    intro n hf
    rw [runSchemeBLoop.eq_def, if_neg (by omega)]
    have hnil : rangeList n N = [] := by
      unfold rangeList
      have h0 : N + 1 - n = 0 := by omega
      rw [h0]
      rfl
    rw [hnil]
    rfl
  | succ fuel ih =>
    intro n hf
    by_cases hn : n ≤ N
    · rw [runSchemeBLoop, if_pos hn, isPrimeByDivisorThreads_eq n W hW,
        rangeList_cons n N hn, List.filter_cons]
      cases hcase : isPrimeSingleThread (n : Int) with
      | true =>
        show (runSchemeBLoop W N (n + 1)).map (n :: ·) = _
        rw [ih (n + 1) (by omega)]
        simp
      | false =>
        show runSchemeBLoop W N (n + 1) = _
        rw [ih (n + 1) (by omega)]
        simp
    · rw [runSchemeBLoop.eq_def, if_neg hn]
      have hnil : rangeList n N = [] := by
        unfold rangeList
        have h0 : N + 1 - n = 0 := by omega
        rw [h0]
        rfl
      rw [hnil]
      rfl

theorem runSchemeB_eq (N : Nat) (W : Int) (hW : 1 ≤ W) :
    runSchemeB N W =
      some ((rangeList 2 N).filter (fun k : Nat => isPrimeSingleThread (k : Int))) :=
  runSchemeBLoop_eq W hW N (N + 1 - 2) 2 (le_refl _)

/-- Loop invariant of the Scheme A chunking loop in `main`: starting at
iteration `i` with `start = 1 + i * rangeSize`, the produced assignments lie
within [start, maxNumber], cover [start, maxNumber] completely, are pairwise
disjoint, number exactly one per remaining iteration, and are each non-empty
whenever the chunk size is positive. -/
theorem schemeALoop_spec (N W r : Nat) (hr : r = N / W) (hN : 1 ≤ N) (hW : 1 ≤ W) :
    ∀ fuel i start, W - i ≤ fuel → i < W → start = 1 + i * r →
      ((schemeALoop N r W i start).length = W - i) ∧
      (∀ c ∈ schemeALoop N r W i start, start ≤ c.1 ∧ c.2 ≤ N) ∧
      (∀ j, start ≤ j → j ≤ N → ∃ c ∈ schemeALoop N r W i start, c.1 ≤ j ∧ j ≤ c.2) ∧
      List.Pairwise (fun c c' : Nat × Nat => c.2 < c'.1) (schemeALoop N r W i start) ∧
      (1 ≤ r → ∀ c ∈ schemeALoop N r W i start, c.1 ≤ c.2) := by
  have hWr : W * r ≤ N := by
    rw [hr, Nat.mul_comm]
    exact Nat.div_mul_le_self N W
  intro fuel
  induction fuel with
  | zero => intro i start h1 h2 _; omega
  | succ fuel ih =>
    intro i start hfuel hiW hs
    have hts : i * r ≤ (W - 1) * r := Nat.mul_le_mul_right r (by omega)
    have hw1 : (W - 1) * r + r = W * r := by
      have hWe : (W - 1) + 1 = W := by omega
      calc (W - 1) * r + r = ((W - 1) + 1) * r := (Nat.succ_mul _ _).symm
        _ = W * r := by rw [hWe]
    have hstart1 : 1 ≤ start := by omega
    by_cases hlast : i = W - 1
    · have he : (if i = W - 1 then N else start + r - 1) = N := if_pos hlast
      have hnW : ¬ (i + 1 < W) := by omega
      have hnil : schemeALoop N r W (i + 1) (N + 1) = [] := by
        rw [schemeALoop, if_neg hnW]
      rw [schemeALoop, if_pos hiW]
      simp only [he, hnil]
      refine ⟨by simp only [List.length_singleton]; omega, ?_, ?_, by simp, ?_⟩
      · intro c hc
        simp only [List.mem_singleton] at hc
        subst hc
        exact ⟨le_refl _, le_refl _⟩
      · intro j hj1 hj2
        exact ⟨(start, N), List.mem_singleton_self _, hj1, hj2⟩
      · intro hr1 c hc
        simp only [List.mem_singleton] at hc
        subst hc
        simp only
        omega
    · have he : (if i = W - 1 then N else start + r - 1) = start + r - 1 := if_neg hlast
      have hts1 : (i + 1) * r ≤ (W - 1) * r := Nat.mul_le_mul_right r (by omega)
      have hsucc : start + r = 1 + (i + 1) * r := by rw [Nat.succ_mul]; omega
      have hstep : start + r - 1 + 1 = start + r := by omega
      have hrec := ih (i + 1) (start + r) (by omega) (by omega) hsucc
      obtain ⟨hlen, hbounds, hcover, hpair, hne⟩ := hrec
      rw [schemeALoop, if_pos hiW]
      simp only [he, hstep]
      have hendN : start + r - 1 ≤ N := by omega
      refine ⟨?_, ?_, ?_, ?_, ?_⟩
      · simp only [List.length_cons, hlen]; omega
      · intro c hc
        rcases List.mem_cons.1 hc with rfl | hc
        · exact ⟨le_refl _, hendN⟩
        · have := hbounds c hc
          omega
      · intro j hj1 hj2
        by_cases hj : j ≤ start + r - 1
        · exact ⟨(start, start + r - 1), List.mem_cons_self _ _, hj1, hj⟩
        · obtain ⟨c, hcmem, hc1, hc2⟩ := hcover j (by omega) hj2
          exact ⟨c, List.mem_cons_of_mem _ hcmem, hc1, hc2⟩
      · refine List.Pairwise.cons ?_ hpair
        intro c hc
        have := hbounds c hc
        simp only
        omega
      · intro hr1 c hc
        rcases List.mem_cons.1 hc with rfl | hc
        · simp only
          omega
        · exact hne hr1 c hc

/-- The Scheme A work assignments: exactly `numThreads` of them, confined to
[1, maxNumber], covering [1, maxNumber], pairwise disjoint, and all non-empty
when `numThreads ≤ maxNumber`. -/
theorem schemeAAssignments_spec (N W : Nat) (hW : 1 ≤ W) (hN : 1 ≤ N) :
    ((schemeAAssignments N W).length = W) ∧
    (∀ c ∈ schemeAAssignments N W, 1 ≤ c.1 ∧ c.2 ≤ N) ∧
    (∀ j, 1 ≤ j → j ≤ N → ∃ c ∈ schemeAAssignments N W, c.1 ≤ j ∧ j ≤ c.2) ∧
    List.Pairwise (fun c c' : Nat × Nat => c.2 < c'.1) (schemeAAssignments N W) ∧
    (W ≤ N → ∀ c ∈ schemeAAssignments N W, c.1 ≤ c.2) := by
  have hspec := schemeALoop_spec N W (N / W) rfl hN hW W 0 1 (by omega) (by omega) (by omega)
  obtain ⟨hlen, hbounds, hcover, hpair, hne⟩ := hspec
  exact ⟨by rw [schemeAAssignments, hlen]; omega, hbounds, hcover, hpair,
    fun hWN => hne ((Nat.one_le_div_iff (by omega)).2 hWN)⟩

theorem toNat_coe (x : Nat) : ((x : Int)).toNat = x := rfl

theorem mem_workerRangeSchemeA (x s e : Nat) :
    x ∈ workerRangeSchemeA s e ↔ (s ≤ x ∧ x ≤ e) ∧ (Nat.Prime x) := by
  unfold workerRangeSchemeA
  rw [List.mem_filter, mem_rangeList]
  constructor
  · rintro ⟨hr, hp⟩
    obtain ⟨_, hpp⟩ := (isPrimeSingleThread_iff (x : Int)).1 hp
    rw [toNat_coe] at hpp
    exact ⟨hr, hpp⟩
  · rintro ⟨hr, hp⟩
    refine ⟨hr, (isPrimeSingleThread_iff (x : Int)).2 ⟨?_, ?_⟩⟩
    · have := hp.two_le
      omega
    · rw [toNat_coe]
      exact hp

theorem nodup_workerRangeSchemeA (s e : Nat) : (workerRangeSchemeA s e).Nodup :=
  (nodup_rangeList s e).filter _

/-- Membership in the Scheme A report: exactly the primes up to `maxNumber`. -/
theorem mem_schemeAPrimes (N W : Nat) (hW : 1 ≤ W) (hN : 1 ≤ N) (x : Nat) :
    x ∈ schemeAPrimes N W ↔ Nat.Prime x ∧ x ≤ N := by
  obtain ⟨_, hbounds, hcover, _, _⟩ := schemeAAssignments_spec N W hW hN
  unfold schemeAPrimes
  rw [List.mem_flatMap]
  constructor
  · rintro ⟨c, hc, hx⟩
    obtain ⟨⟨h1, h2⟩, hp⟩ := (mem_workerRangeSchemeA x c.1 c.2).1 hx
    have := hbounds c hc
    exact ⟨hp, by omega⟩
  · rintro ⟨hp, hxN⟩
    have hx1 : 1 ≤ x := le_trans (by omega) hp.two_le
    obtain ⟨c, hc, hc1, hc2⟩ := hcover x hx1 hxN
    exact ⟨c, hc, (mem_workerRangeSchemeA x c.1 c.2).2 ⟨⟨hc1, hc2⟩, hp⟩⟩

/-- The Scheme A report contains no duplicates: the assignments are disjoint
intervals and each worker's own report is duplicate-free. -/
theorem nodup_schemeAPrimes (N W : Nat) (hW : 1 ≤ W) (hN : 1 ≤ N) :
    (schemeAPrimes N W).Nodup := by
  obtain ⟨_, _, _, hpair, _⟩ := schemeAAssignments_spec N W hW hN
  unfold schemeAPrimes
  rw [List.nodup_flatMap]
  refine ⟨fun c _ => nodup_workerRangeSchemeA c.1 c.2, ?_⟩
  refine hpair.imp ?_
  intro c c' hlt
  intro x hx hx'
  obtain ⟨⟨_, h2⟩, _⟩ := (mem_workerRangeSchemeA x c.1 c.2).1 hx
  obtain ⟨⟨h3, _⟩, _⟩ := (mem_workerRangeSchemeA x c'.1 c'.2).1 hx'
  omega

/-! ### Configuration parsing (src/main.cpp lines 15-56)

`readConfig` scans the file line by line.  A line beginning `threads=` has its
tail parsed by `std::stol`; a parse failure or a non-positive value prints a
diagnostic and calls `std::exit(1)` (modelled by `Except.error` carrying the
error kind).  A line beginning `maxNumber=` likewise requires a value greater
than 1.  After the scan, a missing key is likewise fatal.  Lines are modelled
as character lists; out-of-range `long` overflow is not modelled (it takes the
same fatal path in the source via `catch (...)`). -/
inductive ConfigError where
  | invalidThreads : ConfigError
  | invalidMaxNumber : ConfigError
  | missingEntries : ConfigError
deriving DecidableEq

/-- The whitespace characters skipped by `std::stol` (C locale `isspace`). -/
def isSpaceChar (c : Char) : Bool :=
  c = ' ' || c = '\t' || c = '\n' || c = '\x0b' || c = '\x0c' || c = '\r'

def digitsVal (ds : List Char) : Nat :=
  ds.foldl (fun a c => a * 10 + (c.toNat - 48)) 0

/-- Model of `std::stol` on the value part of a config line: skip leading
whitespace, accept an optional sign, then require at least one decimal digit;
the numeric value is that of the maximal digit run (trailing junk is ignored,
as by `std::stol`).  `none` models the thrown exception when no digits are
found. -/
def stolParse (cs : List Char) : Option Int :=
  match cs.dropWhile isSpaceChar with
  | '-' :: rest =>
      if (rest.takeWhile Char.isDigit).isEmpty then none
      else some (-(digitsVal (rest.takeWhile Char.isDigit) : Int))
  | '+' :: rest =>
      if (rest.takeWhile Char.isDigit).isEmpty then none
      else some ((digitsVal (rest.takeWhile Char.isDigit) : Int))
  | other =>
      if (other.takeWhile Char.isDigit).isEmpty then none
      else some ((digitsVal (other.takeWhile Char.isDigit) : Int))

def threadsKey : List Char := "threads=".toList

def maxNumberKey : List Char := "maxNumber=".toList

/-- One pass of the `while (std::getline(...))` loop of `readConfig`, carrying
the values parsed so far (`none` = the corresponding `...Set` flag is still
false).  The first invalid line aborts with the corresponding diagnostic. -/
def readConfigLoop : List (List Char) → Option Int → Option Int →
    Except ConfigError (Int × Int)
  | [], some t, some m => .ok (t, m)
  | [], _, _ => .error .missingEntries
  | l :: rest, t?, m? =>
    if threadsKey.isPrefixOf l then
      match stolParse (l.drop 8) with
      | none => .error .invalidThreads
      | some v => if v ≤ 0 then .error .invalidThreads else readConfigLoop rest (some v) m?
    else if maxNumberKey.isPrefixOf l then
      match stolParse (l.drop 10) with
      | none => .error .invalidMaxNumber
      | some v => if v ≤ 1 then .error .invalidMaxNumber else readConfigLoop rest t? (some v)
    else readConfigLoop rest t? m?

/-- Model of `readConfig` (src/main.cpp lines 15-56) on the lines of an
already-opened file.  `Except.error e` stands for the source printing a
diagnostic to `stderr` and terminating the process with `std::exit(1)`. -/
def readConfig (lines : List (List Char)) : Except ConfigError (Int × Int) :=
  readConfigLoop lines none none

/-- Model of a full program run (src/main.cpp `main`): read and validate the
configuration, then, for menu choice 1 or 2, run Scheme A and, for choice 3 or
4, run Scheme B (with the configured `threads` count).  It returns the
multiset of reported primes in canonical order; a configuration error aborts
before any worker is spawned or any candidate is tested, so no prime is ever
reported on the error path. -/
def runModel (lines : List (List Char)) (choice : Nat) : Except ConfigError (List Nat) :=
  match readConfig lines with
  | .error e => .error e
  | .ok (t, m) =>
      if choice ≤ 2 then .ok (schemeAPrimes m.toNat t.toNat)
      else .ok ((runSchemeB m.toNat t).getD [])

/-! ### The shared CompositeFlag protocol (src/main.cpp lines 118-136)

Small-step model of the workers of one `isPrimeByDivisorThreads` invocation.
Each worker of `workerCheckDivRange(n, startDiv, endDiv, compositeFound,
flagMutex)` is a program counter: at `check` (holding `d ≤ endDiv`) it is
about to take the lock and read the flag; at `test` it is about to evaluate
`n % d == 0`; `done` means it has returned.  The lock makes each read-flag and
test-and-set step atomic; an interleaving is any sequence of `DivStep`s. -/
inductive WPhase where
  | check : WPhase
  | test : WPhase
  | done : WPhase
deriving DecidableEq

structure WorkerSt where
  d : Nat
  endDiv : Nat
  phase : WPhase
deriving DecidableEq

structure DivState where
  flag : Bool
  workers : List WorkerSt
deriving DecidableEq

/-- One atomic step of one worker of a divisor-partitioning invocation for the
candidate `n`.  The five cases are: observing the flag already set and
returning (the cooperative early-exit, lines 125-128); observing it unset and
proceeding to the divisor test; finding an exact divisor and setting the flag
under the lock (lines 129-134); moving to the next divisor; and leaving the
loop past `endDiv`. -/
inductive DivStep (n : Nat) : DivState → DivState → Prop where
  | checkStop (s : DivState) (i : Nat) (w : WorkerSt) :
      s.workers[i]? = some w → w.phase = .check → s.flag = true →
      DivStep n s ⟨s.flag, s.workers.set i ⟨w.d, w.endDiv, .done⟩⟩
  | checkGo (s : DivState) (i : Nat) (w : WorkerSt) :
      s.workers[i]? = some w → w.phase = .check → s.flag = false →
      DivStep n s ⟨s.flag, s.workers.set i ⟨w.d, w.endDiv, .test⟩⟩
  | testHit (s : DivState) (i : Nat) (w : WorkerSt) :
      s.workers[i]? = some w → w.phase = .test → n % w.d = 0 →
      DivStep n s ⟨true, s.workers.set i ⟨w.d, w.endDiv, .done⟩⟩
  | testNext (s : DivState) (i : Nat) (w : WorkerSt) :
      s.workers[i]? = some w → w.phase = .test → n % w.d ≠ 0 → w.d + 1 ≤ w.endDiv →
      DivStep n s ⟨s.flag, s.workers.set i ⟨w.d + 1, w.endDiv, .check⟩⟩
  | testExit (s : DivState) (i : Nat) (w : WorkerSt) :
      s.workers[i]? = some w → w.phase = .test → n % w.d ≠ 0 → w.endDiv < w.d + 1 →
      DivStep n s ⟨s.flag, s.workers.set i ⟨w.d, w.endDiv, .done⟩⟩

/-- The flag never goes from set to unset in a single step. -/
theorem divStep_flag_mono (n : Nat) (s s' : DivState) (h : DivStep n s s') :
    s.flag = true → s'.flag = true := by
  cases h with
  | checkStop i w h1 h2 h3 => intro hf; exact hf
  | checkGo i w h1 h2 h3 => intro hf; exact hf
  | testHit i w h1 h2 h3 => intro _; rfl
  | testNext i w h1 h2 h3 h4 => intro hf; exact hf
  | testExit i w h1 h2 h3 h4 => intro hf; exact hf

/-- The flag never goes from set to unset along any interleaving. -/
theorem divSteps_flag_mono (n : Nat) (s s' : DivState)
    (h : Relation.ReflTransGen (DivStep n) s s') :
    s.flag = true → s'.flag = true := by
  induction h with
  | refl => exact fun hf => hf
  | tail _ hstep ih => exact fun hf => divStep_flag_mono n _ _ hstep (ih hf)

/-- A worker that is about to check the flag while the flag is set can only
stay put (if the step is another worker's) or return immediately with its
position unchanged: it never reaches its divisor test. -/
theorem divStep_check_stops (n : Nat) (s s' : DivState) (i : Nat) (w : WorkerSt)
    (h : DivStep n s s') (hf : s.flag = true)
    (hw : s.workers[i]? = some w) (hph : w.phase = .check) :
    s'.workers[i]? = some w ∨ s'.workers[i]? = some ⟨w.d, w.endDiv, .done⟩ := by
  cases h with
  | checkStop j w' h1 h2 h3 =>
    by_cases hij : j = i
    · subst hij
      rw [hw] at h1
      injection h1 with h1
      subst h1
      right
      simp only
      exact List.getElem?_set_eq_of_lt _ (List.getElem?_eq_some_iff.1 hw).1
    · left
      simp only
      rw [List.getElem?_set_ne hij]
      exact hw
  | checkGo j w' h1 h2 h3 =>
    rw [hf] at h3
    exact Bool.noConfusion h3
  | testHit j w' h1 h2 h3 =>
    by_cases hij : j = i
    · subst hij
      rw [hw] at h1
      injection h1 with h1
      subst h1
      rw [hph] at h2
      exact WPhase.noConfusion h2
    · left
      simp only
      rw [List.getElem?_set_ne hij]
      exact hw
  | testNext j w' h1 h2 h3 h4 =>
    by_cases hij : j = i
    · subst hij
      rw [hw] at h1
      injection h1 with h1
      subst h1
      rw [hph] at h2
      exact WPhase.noConfusion h2
    · left
      simp only
      rw [List.getElem?_set_ne hij]
      exact hw
  | testExit j w' h1 h2 h3 h4 =>
    by_cases hij : j = i
    · subst hij
      rw [hw] at h1
      injection h1 with h1
      subst h1
      rw [hph] at h2
      exact WPhase.noConfusion h2
    · left
      simp only
      rw [List.getElem?_set_ne hij]
      exact hw

/-! ### Error behaviour of the configuration reader -/

theorem readConfigLoop_missing_threads :
    ∀ (lines : List (List Char)) (m? : Option Int),
      (∀ l ∈ lines, ¬ threadsKey.isPrefixOf l = true) →
      ∃ e, readConfigLoop lines none m? = .error e := by
  intro lines
  induction lines with
  | nil =>
    intro m? _
    rcases m? with _ | m <;> exact ⟨.missingEntries, rfl⟩
  | cons l rest ih =>
    intro m? hnone
    have hl : ¬ threadsKey.isPrefixOf l = true := hnone l (List.mem_cons_self _ _)
    rw [readConfigLoop, if_neg hl]
    by_cases hm : maxNumberKey.isPrefixOf l = true
    · rw [if_pos hm]
      cases hv : stolParse (l.drop 10) with
      | none => exact ⟨.invalidMaxNumber, rfl⟩
      | some v =>
        by_cases hv1 : v ≤ 1
        · exact ⟨.invalidMaxNumber, by simp only [hv1, reduceIte]⟩
        · simp only [hv1, reduceIte]
          exact ih (some v) (fun x hx => hnone x (List.mem_cons_of_mem _ hx))
    · rw [if_neg hm]
      exact ih m? (fun x hx => hnone x (List.mem_cons_of_mem _ hx))

theorem readConfigLoop_missing_max :
    ∀ (lines : List (List Char)) (t? : Option Int),
      (∀ l ∈ lines, ¬ maxNumberKey.isPrefixOf l = true) →
      ∃ e, readConfigLoop lines t? none = .error e := by
  intro lines
  induction lines with
  | nil =>
    intro t? _
    rcases t? with _ | t <;> exact ⟨.missingEntries, rfl⟩
  | cons l rest ih =>
    intro t? hnone
    have hl : ¬ maxNumberKey.isPrefixOf l = true := hnone l (List.mem_cons_self _ _)
    rw [readConfigLoop]
    by_cases ht : threadsKey.isPrefixOf l = true
    · rw [if_pos ht]
      cases hv : stolParse (l.drop 8) with
      | none => exact ⟨.invalidThreads, rfl⟩
      | some v =>
        by_cases hv0 : v ≤ 0
        · exact ⟨.invalidThreads, by simp only [hv0, reduceIte]⟩
        · simp only [hv0, reduceIte]
          exact ih (some v) (fun x hx => hnone x (List.mem_cons_of_mem _ hx))
    · rw [if_neg ht, if_neg hl]
      exact ih t? (fun x hx => hnone x (List.mem_cons_of_mem _ hx))

theorem readConfigLoop_bad_threads :
    ∀ (lines : List (List Char)) (t? m? : Option Int),
      (∃ l ∈ lines, threadsKey.isPrefixOf l = true ∧
        ∀ v, stolParse (l.drop 8) = some v → v ≤ 0) →
      ∃ e, readConfigLoop lines t? m? = .error e := by
  intro lines
  induction lines with
  | nil =>
    rintro t? m? ⟨l, hl, _⟩
    exact absurd hl (List.not_mem_nil l)
  | cons l rest ih =>
    rintro t? m? ⟨l', hl', hpre, hbad⟩
    rw [readConfigLoop]
    rcases List.mem_cons.1 hl' with rfl | hrest
    · rw [if_pos hpre]
      cases hv : stolParse (l'.drop 8) with
      | none => exact ⟨.invalidThreads, rfl⟩
      | some v =>
        exact ⟨.invalidThreads, by simp only [hbad v hv, reduceIte]⟩
    · by_cases ht : threadsKey.isPrefixOf l = true
      · rw [if_pos ht]
        cases hv : stolParse (l.drop 8) with
        | none => exact ⟨.invalidThreads, rfl⟩
        | some v =>
          by_cases hv0 : v ≤ 0
          · exact ⟨.invalidThreads, by simp only [hv0, reduceIte]⟩
          · simp only [hv0, reduceIte]
            exact ih (some v) m? ⟨l', hrest, hpre, hbad⟩
      · rw [if_neg ht]
        by_cases hm : maxNumberKey.isPrefixOf l = true
        · rw [if_pos hm]
          cases hv : stolParse (l.drop 10) with
          | none => exact ⟨.invalidMaxNumber, rfl⟩
          | some v =>
            by_cases hv1 : v ≤ 1
            · exact ⟨.invalidMaxNumber, by simp only [hv1, reduceIte]⟩
            · simp only [hv1, reduceIte]
              exact ih t? (some v) ⟨l', hrest, hpre, hbad⟩
        · rw [if_neg hm]
          exact ih t? m? ⟨l', hrest, hpre, hbad⟩

/-- A config line cannot begin with both keys (they differ in the first
character). -/
theorem keys_incompatible (l : List Char) :
    threadsKey.isPrefixOf l = true → maxNumberKey.isPrefixOf l = true → False := by
  intro h1 h2
  rw [List.isPrefixOf_iff_prefix] at h1 h2
  obtain ⟨a, ha⟩ := h1
  obtain ⟨b, hb⟩ := h2
  have hkeys : threadsKey ++ a = maxNumberKey ++ b := ha.trans hb.symm
  have ht : threadsKey = ['t', 'h', 'r', 'e', 'a', 'd', 's', '='] := rfl
  have hm : maxNumberKey = ['m', 'a', 'x', 'N', 'u', 'm', 'b', 'e', 'r', '='] := rfl
  rw [ht, hm] at hkeys
  simp only [List.cons_append, List.cons.injEq] at hkeys
  exact absurd hkeys.1 (by decide)

theorem readConfigLoop_bad_max :
    ∀ (lines : List (List Char)) (t? m? : Option Int),
      (∃ l ∈ lines, maxNumberKey.isPrefixOf l = true ∧
        ∀ v, stolParse (l.drop 10) = some v → v ≤ 1) →
      ∃ e, readConfigLoop lines t? m? = .error e := by
  intro lines
  induction lines with
  | nil =>
    rintro t? m? ⟨l, hl, _⟩
    exact absurd hl (List.not_mem_nil l)
  | cons l rest ih =>
    rintro t? m? ⟨l', hl', hpre, hbad⟩
    rw [readConfigLoop]
    rcases List.mem_cons.1 hl' with rfl | hrest
    · have hnt : ¬ threadsKey.isPrefixOf l' = true :=
        fun ht => keys_incompatible l' ht hpre
      rw [if_neg hnt, if_pos hpre]
      cases hv : stolParse (l'.drop 10) with
      | none => exact ⟨.invalidMaxNumber, rfl⟩
      | some v =>
        exact ⟨.invalidMaxNumber, by simp only [hbad v hv, reduceIte]⟩
    · by_cases ht : threadsKey.isPrefixOf l = true
      · rw [if_pos ht]
        cases hv : stolParse (l.drop 8) with
        | none => exact ⟨.invalidThreads, rfl⟩
        | some v =>
          by_cases hv0 : v ≤ 0
          · exact ⟨.invalidThreads, by simp only [hv0, reduceIte]⟩
          · simp only [hv0, reduceIte]
            exact ih (some v) m? ⟨l', hrest, hpre, hbad⟩
      · rw [if_neg ht]
        by_cases hm : maxNumberKey.isPrefixOf l = true
        · rw [if_pos hm]
          cases hv : stolParse (l.drop 10) with
          | none => exact ⟨.invalidMaxNumber, rfl⟩
          | some v =>
            by_cases hv1 : v ≤ 1
            · exact ⟨.invalidMaxNumber, by simp only [hv1, reduceIte]⟩
            · simp only [hv1, reduceIte]
              exact ih t? (some v) ⟨l', hrest, hpre, hbad⟩
        · rw [if_neg hm]
          exact ih t? m? ⟨l', hrest, hpre, hbad⟩

/-! ### Derived facts assembled for the claims -/

theorem schemeB_list_spec (N : Nat) (W : Int) (hW : 1 ≤ W) :
    ∃ L, runSchemeB N W = some L ∧
      (∀ x, x ∈ L ↔ (Nat.Prime x ∧ x ≤ N)) ∧ L.Nodup := by
  refine ⟨(rangeList 2 N).filter (fun k : Nat => isPrimeSingleThread (k : Int)),
    runSchemeB_eq N W hW, ?_, (nodup_rangeList 2 N).filter _⟩
  intro x
  rw [List.mem_filter, mem_rangeList]
  constructor
  · rintro ⟨⟨h2, hN⟩, hp⟩
    obtain ⟨_, hpp⟩ := (isPrimeSingleThread_iff (x : Int)).1 hp
    rw [toNat_coe] at hpp
    exact ⟨hpp, hN⟩
  · rintro ⟨hp, hN⟩
    have h2 := hp.two_le
    refine ⟨⟨h2, hN⟩, (isPrimeSingleThread_iff (x : Int)).2 ⟨by omega, ?_⟩⟩
    rw [toNat_coe]
    exact hp

theorem deferredOutput_sorted (l : List Nat) :
    List.Sorted (· ≤ ·) (deferredOutput l) :=
  List.sorted_insertionSort (· ≤ ·) l

theorem deferredOutput_perm (l : List Nat) : (deferredOutput l).Perm l :=
  List.perm_insertionSort (· ≤ ·) l

theorem deferredOutput_mem (l : List Nat) (x : Nat) :
    x ∈ deferredOutput l ↔ x ∈ l :=
  (deferredOutput_perm l).mem_iff

theorem deferredOutput_nodup (l : List Nat) (h : l.Nodup) :
    (deferredOutput l).Nodup :=
  ((deferredOutput_perm l).nodup_iff).2 h

/-- A list on which a predicate holds mutually exclusively and at least once
counts it exactly once. -/
theorem countP_eq_one_of (l : List (Nat × Nat)) (p : Nat × Nat → Bool)
    (hpair : List.Pairwise (fun a b => ¬(p a = true ∧ p b = true)) l)
    (hex : ∃ a ∈ l, p a = true) : l.countP p = 1 := by
  induction l with
  | nil =>
    obtain ⟨a, ha, _⟩ := hex
    exact absurd ha (List.not_mem_nil a)
  | cons a l ih =>
    rw [List.countP_cons]
    obtain ⟨hhead, htail⟩ := List.pairwise_cons.1 hpair
    obtain ⟨b, hb, hpb⟩ := hex
    rcases List.mem_cons.1 hb with rfl | hbl
    · have hall : l.countP p = 0 := by
        rw [List.countP_eq_zero]
        intro x hx hpx
        exact hhead x hx ⟨hpb, hpx⟩
      rw [hall, hpb]
      rfl
    · have hpa : p a = false := by
        cases hpa : p a
        · rfl
        · exact absurd ⟨hpa, hpb⟩ (hhead b hbl)
      rw [ih htail ⟨b, hbl, hpb⟩, hpa]
      rfl

/-- A worker that has returned never moves again. -/
theorem divStep_done_stays (n : Nat) (s s' : DivState) (i : Nat) (w : WorkerSt)
    (h : DivStep n s s') (hw : s.workers[i]? = some w) (hph : w.phase = .done) :
    s'.workers[i]? = some w := by
  cases h with
  | checkStop j w' h1 h2 h3 =>
    by_cases hij : j = i
    · subst hij
      rw [hw] at h1
      injection h1 with h1
      subst h1
      rw [hph] at h2
      exact WPhase.noConfusion h2
    · simp only
      rw [List.getElem?_set_ne hij]
      exact hw
  | checkGo j w' h1 h2 h3 =>
    by_cases hij : j = i
    · subst hij
      rw [hw] at h1
      injection h1 with h1
      subst h1
      rw [hph] at h2
      exact WPhase.noConfusion h2
    · simp only
      rw [List.getElem?_set_ne hij]
      exact hw
  | testHit j w' h1 h2 h3 =>
    by_cases hij : j = i
    · subst hij
      rw [hw] at h1
      injection h1 with h1
      subst h1
      rw [hph] at h2
      exact WPhase.noConfusion h2
    · simp only
      rw [List.getElem?_set_ne hij]
      exact hw
  | testNext j w' h1 h2 h3 h4 =>
    by_cases hij : j = i
    · subst hij
      rw [hw] at h1
      injection h1 with h1
      subst h1
      rw [hph] at h2
      exact WPhase.noConfusion h2
    · simp only
      rw [List.getElem?_set_ne hij]
      exact hw
  | testExit j w' h1 h2 h3 h4 =>
    by_cases hij : j = i
    · subst hij
      rw [hw] at h1
      injection h1 with h1
      subst h1
      rw [hph] at h2
      exact WPhase.noConfusion h2
    · simp only
      rw [List.getElem?_set_ne hij]
      exact hw

/-! ### Adequacy of the sequential verdict model

The verdict of `isPrimeByDivisorThreads` was modelled as the disjunction of
the per-worker scans `workerFindsDiv`.  The following theorems justify that
model against the interleaving semantics `DivStep`: starting all workers at
the beginning of their ranges with the flag down, every complete interleaving
(one in which all workers have returned) ends with the flag raised exactly
when some worker's range contains a divisor. -/

/-- The state of one worker as it enters `workerCheckDivRange`: the `for` loop
guard is evaluated before the first flag check, so an empty range returns at
once. -/
def initWorker (c : Nat × Nat) : WorkerSt :=
  if c.1 ≤ c.2 then ⟨c.1, c.2, .check⟩ else ⟨c.1, c.2, .done⟩

/-- The state of a divisor-partitioning invocation after spawning one worker
per chunk of `ws` (as value ranges) and before any of them runs: the flag is
down. -/
def initState (ws : List (Nat × Nat)) : DivState :=
  ⟨false, ws.map initWorker⟩

/-- Per-worker progress invariant relative to its original range `c`, valid
while the flag is down: a returned worker has scanned all of `[c.1, c.2]`
without finding a divisor, and a running worker has scanned `[c.1, w.d)`. -/
def WInv (n : Nat) (c : Nat × Nat) (w : WorkerSt) : Prop :=
  w.endDiv = c.2 ∧
  ((w.phase = .done ∧ ∀ d, c.1 ≤ d → d ≤ c.2 → n % d ≠ 0) ∨
   (w.phase ≠ .done ∧ c.1 ≤ w.d ∧ w.d ≤ c.2 ∧ ∀ d, c.1 ≤ d → d < w.d → n % d ≠ 0))

/-- Global invariant of an invocation spawned over the ranges `ws`. -/
def DivInv (n : Nat) (ws : List (Nat × Nat)) (s : DivState) : Prop :=
  s.workers.length = ws.length ∧
  (s.flag = false → ∀ (i : Nat) (c : Nat × Nat) (w : WorkerSt),
    ws[i]? = some c → s.workers[i]? = some w → WInv n c w) ∧
  (s.flag = true → ∃ c ∈ ws, ∃ d, c.1 ≤ d ∧ d ≤ c.2 ∧ n % d = 0)

theorem divInv_init (n : Nat) (ws : List (Nat × Nat)) : DivInv n ws (initState ws) := by
  refine ⟨List.length_map ws initWorker, ?_, ?_⟩
  · intro _ i c w hc hw
    have hmap : (ws.map initWorker)[i]? = some w := hw
    rw [List.getElem?_map, hc, Option.map_some'] at hmap
    injection hmap with hmap
    subst hmap
    unfold initWorker WInv
    by_cases hce : c.1 ≤ c.2
    · rw [if_pos hce]
      refine ⟨rfl, Or.inr ⟨by simp, le_refl _, hce, fun d h1 h2 => ?_⟩⟩
      have h2a : d < c.1 := h2
      omega
    · rw [if_neg hce]
      exact ⟨rfl, Or.inl ⟨rfl, fun d h1 h2 _ => hce (le_trans h1 h2)⟩⟩
  · intro hflag
    exact Bool.noConfusion hflag

theorem divInv_step (n : Nat) (ws : List (Nat × Nat)) (s s' : DivState)
    (hinv : DivInv n ws s) (hstep : DivStep n s s') : DivInv n ws s' := by
  obtain ⟨hlen, hfalse, htrue⟩ := hinv
  cases hstep with
  | checkStop j w' h1 h2 h3 =>
    refine ⟨by simpa using hlen, ?_, ?_⟩
    · intro hflag
      rw [h3] at hflag
      exact Bool.noConfusion hflag
    · intro _
      exact htrue h3
  | checkGo j w' h1 h2 h3 =>
    refine ⟨by simpa using hlen, ?_, ?_⟩
    · intro _ i c w hc hw
      by_cases hij : j = i
      · subst hij
        rw [List.getElem?_set_eq_of_lt _ (List.getElem?_eq_some_iff.1 h1).1] at hw
        injection hw with hw
        subst hw
        obtain ⟨he, hcase⟩ := hfalse h3 j c w' hc h1
        refine ⟨he, ?_⟩
        rcases hcase with ⟨hdone, _⟩ | ⟨_, hd1, hd2, hscan⟩
        · rw [h2] at hdone
          exact WPhase.noConfusion hdone
        · exact Or.inr ⟨by simp, hd1, hd2, hscan⟩
      · rw [List.getElem?_set_ne hij] at hw
        exact hfalse h3 i c w hc hw
    · intro hflag
      simp only at hflag
      rw [h3] at hflag
      exact Bool.noConfusion hflag
  | testHit j w' h1 h2 h3 =>
    refine ⟨by simpa using hlen, ?_, ?_⟩
    · intro hflag
      exact Bool.noConfusion hflag
    · intro _
      cases hsf : s.flag with
      | true => exact htrue hsf
      | false =>
        have hj : j < s.workers.length := (List.getElem?_eq_some_iff.1 h1).1
        have hjws : j < ws.length := by omega
        have hc : ws[j]? = some ws[j] := List.getElem?_eq_getElem hjws
        obtain ⟨he, hcase⟩ := hfalse hsf j ws[j] w' hc h1
        rcases hcase with ⟨hdone, _⟩ | ⟨_, hd1, hd2, _⟩
        · rw [h2] at hdone
          exact WPhase.noConfusion hdone
        · exact ⟨ws[j], List.getElem_mem hjws, w'.d, hd1, by omega, h3⟩
  | testNext j w' h1 h2 h3 h4 =>
    refine ⟨by simpa using hlen, ?_, ?_⟩
    · intro hflag
      simp only at hflag
      intro i c w hc hw
      by_cases hij : j = i
      · subst hij
        rw [List.getElem?_set_eq_of_lt _ (List.getElem?_eq_some_iff.1 h1).1] at hw
        injection hw with hw
        subst hw
        obtain ⟨he, hcase⟩ := hfalse hflag j c w' hc h1
        refine ⟨he, ?_⟩
        rcases hcase with ⟨hdone, _⟩ | ⟨_, hd1, hd2, hscan⟩
        · rw [h2] at hdone
          exact WPhase.noConfusion hdone
        · refine Or.inr ⟨by simp, show c.1 ≤ w'.d + 1 by omega,
            show w'.d + 1 ≤ c.2 by omega, fun d hda hdb => ?_⟩
          have hdb1 : d < w'.d + 1 := hdb
          by_cases hdd : d < w'.d
          · exact hscan d hda hdd
          · have hdw : d = w'.d := by omega
            subst hdw
            exact h3
      · rw [List.getElem?_set_ne hij] at hw
        exact hfalse hflag i c w hc hw
    · intro hflag
      simp only at hflag
      exact htrue hflag
  | testExit j w' h1 h2 h3 h4 =>
    refine ⟨by simpa using hlen, ?_, ?_⟩
    · intro hflag
      simp only at hflag
      intro i c w hc hw
      by_cases hij : j = i
      · subst hij
        rw [List.getElem?_set_eq_of_lt _ (List.getElem?_eq_some_iff.1 h1).1] at hw
        injection hw with hw
        subst hw
        obtain ⟨he, hcase⟩ := hfalse hflag j c w' hc h1
        refine ⟨he, ?_⟩
        rcases hcase with ⟨hdone, _⟩ | ⟨_, hd1, hd2, hscan⟩
        · rw [h2] at hdone
          exact WPhase.noConfusion hdone
        · refine Or.inl ⟨rfl, fun d hda hdb => ?_⟩
          have hd2' : w'.d = c.2 := by omega
          by_cases hdd : d < w'.d
          · exact hscan d hda hdd
          · have : d = w'.d := by omega
            subst this
            exact h3
      · rw [List.getElem?_set_ne hij] at hw
        exact hfalse hflag i c w hc hw
    · intro hflag
      simp only at hflag
      exact htrue hflag

theorem divInv_steps (n : Nat) (ws : List (Nat × Nat)) (s s' : DivState)
    (h : Relation.ReflTransGen (DivStep n) s s') (hinv : DivInv n ws s) :
    DivInv n ws s' := by
  induction h with
  | refl => exact hinv
  | tail _ hstep ih => exact divInv_step n ws _ _ ih hstep

/-- Adequacy of the sequential verdict model: whatever the interleaving, once
every worker of an invocation spawned over the ranges `ws` has returned, the
shared flag is up exactly when some worker's range contains a divisor of `n` —
that is, it equals the disjunction of the `workerFindsDiv` results used in
`isPrimeByDivisorThreads`. -/
theorem divSteps_final_flag (n : Nat) (ws : List (Nat × Nat)) (s' : DivState)
    (h : Relation.ReflTransGen (DivStep n) (initState ws) s')
    (hdone : ∀ w ∈ s'.workers, w.phase = WPhase.done) :
    s'.flag = (ws.any fun c => workerFindsDiv n c.1 c.2) := by
  obtain ⟨hlen, hfalse, htrue⟩ := divInv_steps n ws _ s' h (divInv_init n ws)
  cases hflag : s'.flag with
  | true =>
    obtain ⟨c, hc, d, hd1, hd2, hd3⟩ := htrue hflag
    symm
    rw [List.any_eq_true]
    exact ⟨c, hc, (workerFindsDiv_iff n c.1 c.2).2 ⟨d, hd1, hd2, hd3⟩⟩
  | false =>
    symm
    rw [List.any_eq_false]
    intro c hc
    obtain ⟨i, hi, hci⟩ := List.mem_iff_getElem.1 hc
    have hiw : i < s'.workers.length := by omega
    have hw : s'.workers[i]? = some s'.workers[i] := List.getElem?_eq_getElem hiw
    obtain ⟨he, hcase⟩ := hfalse hflag i c s'.workers[i] (by rw [List.getElem?_eq_getElem hi, hci]) hw
    rcases hcase with ⟨_, hnofind⟩ | ⟨hnd, _, _, _⟩
    · intro hfind
      obtain ⟨d, hd1, hd2, hd3⟩ := (workerFindsDiv_iff n c.1 c.2).1 hfind
      exact hnofind d hd1 hd2 hd3
    · exact absurd (hdone s'.workers[i] (List.getElem_mem hiw)) hnd

/-- Squares of primes are rejected by the standalone oracle: the truncated
square-root limit includes the prime factor itself. -/
theorem prime_square_rejected (p : Nat) (hp : Nat.Prime p) :
    isPrimeSingleThread ((p * p : Nat) : Int) = false := by
  cases hval : isPrimeSingleThread ((p * p : Nat) : Int) with
  | false => rfl
  | true =>
    exfalso
    obtain ⟨h2, hpp⟩ := (isPrimeSingleThread_iff _).1 hval
    rw [toNat_coe] at hpp
    have hdvd : p ∣ p * p := dvd_mul_right p p
    have hp2 := hp.two_le
    rcases hpp.eq_one_or_self_of_dvd p hdvd with h1 | hself
    · omega
    · have hmul : 2 * p ≤ p * p := Nat.mul_le_mul_right p hp2
      omega

/-! ### The claims -/

/-- C1: for every N ≥ 2 and every worker count W ≥ 1, under either partition
scheme and either sink mode, the set of primes the program reports equals the
set of primes in [1, N] (against Mathlib's `Nat.Prime` as the independent
trial-division reference), with no duplicates and no omissions. -/
theorem C1_reported_primes_exact (N : Nat) (W : Int) (hN : 2 ≤ N) (hW : 1 ≤ W) :
    ((∀ x, x ∈ schemeAPrimes N W.toNat ↔ (Nat.Prime x ∧ 1 ≤ x ∧ x ≤ N)) ∧
      (schemeAPrimes N W.toNat).Nodup) ∧
    (∃ L, runSchemeB N W = some L ∧
      (∀ x, x ∈ L ↔ (Nat.Prime x ∧ 1 ≤ x ∧ x ≤ N)) ∧ L.Nodup) ∧
    ((∀ x, x ∈ schemeADeferred N W.toNat ↔ (Nat.Prime x ∧ 1 ≤ x ∧ x ≤ N)) ∧
      (schemeADeferred N W.toNat).Nodup) ∧
    (∃ D, schemeBDeferred N W = some D ∧
      (∀ x, x ∈ D ↔ (Nat.Prime x ∧ 1 ≤ x ∧ x ≤ N)) ∧ D.Nodup) := by
  have hWn : 1 ≤ W.toNat := by omega
  have hN1 : 1 ≤ N := by omega
  have href : ∀ x : Nat, (Nat.Prime x ∧ x ≤ N) ↔ (Nat.Prime x ∧ 1 ≤ x ∧ x ≤ N) := by
    intro x
    constructor
    · rintro ⟨hp, hn⟩
      have := hp.two_le
      exact ⟨hp, by omega, hn⟩
    · rintro ⟨hp, _, hn⟩
      exact ⟨hp, hn⟩
  have hAnd := nodup_schemeAPrimes N W.toNat hWn hN1
  obtain ⟨L, hL, hLmem, hLnd⟩ := schemeB_list_spec N W hW
  refine ⟨⟨fun x => ?_, hAnd⟩,
    ⟨L, hL, fun x => (hLmem x).trans (href x), hLnd⟩,
    ⟨fun x => ?_, deferredOutput_nodup _ hAnd⟩,
    ⟨deferredOutput L, by rw [schemeBDeferred, hL]; rfl,
      fun x => ?_, deferredOutput_nodup _ hLnd⟩⟩
  · exact (mem_schemeAPrimes N W.toNat hWn hN1 x).trans (href x)
  · exact (deferredOutput_mem _ x).trans
      ((mem_schemeAPrimes N W.toNat hWn hN1 x).trans (href x))
  · exact (deferredOutput_mem _ x).trans ((hLmem x).trans (href x))

theorem C1_witness_scenario :
    (2 ≤ 30) ∧ (1 ≤ (4 : Int)) ∧
    (((∀ x, x ∈ schemeAPrimes 30 (4 : Int).toNat ↔ (Nat.Prime x ∧ 1 ≤ x ∧ x ≤ 30)) ∧
      (schemeAPrimes 30 (4 : Int).toNat).Nodup) ∧
    (∃ L, runSchemeB 30 4 = some L ∧
      (∀ x, x ∈ L ↔ (Nat.Prime x ∧ 1 ≤ x ∧ x ≤ 30)) ∧ L.Nodup) ∧
    ((∀ x, x ∈ schemeADeferred 30 (4 : Int).toNat ↔ (Nat.Prime x ∧ 1 ≤ x ∧ x ≤ 30)) ∧
      (schemeADeferred 30 (4 : Int).toNat).Nodup) ∧
    (∃ D, schemeBDeferred 30 4 = some D ∧
      (∀ x, x ∈ D ↔ (Nat.Prime x ∧ 1 ≤ x ∧ x ≤ 30)) ∧ D.Nodup)) :=
  ⟨by decide, by decide, C1_reported_primes_exact 30 4 (by decide) (by decide)⟩

/-- C2: for every candidate n and every worker budget W from 1 up to the
trial-division limit of n, the divisor partitioner returns the same verdict as
the standalone oracle. -/
theorem C2_divisor_matches_oracle (n : Nat) (W : Int)
    (h1 : 1 ≤ W) (h2 : W ≤ (longSqrt n : Int)) :
    isPrimeByDivisorThreads (n : Int) W = some (isPrimeSingleThread (n : Int)) :=
  isPrimeByDivisorThreads_eq n W h1

theorem C2_witness_25_2 :
    (1 ≤ (2 : Int)) ∧ ((2 : Int) ≤ (longSqrt 25 : Int)) ∧
    isPrimeByDivisorThreads ((25 : Nat) : Int) 2 =
      some (isPrimeSingleThread ((25 : Nat) : Int)) :=
  ⟨by decide, by decide, C2_divisor_matches_oracle 25 2 (by decide) (by decide)⟩

/-- C3: `isPrimeSingleThread` returns true exactly on the primes, for every
integer input (negative, zero and unit inputs are all rejected by the `n < 2`
step); the function is pure and total by construction. -/
theorem C3_oracle_correct (n : Int) :
    isPrimeSingleThread n = true ↔ (2 ≤ n ∧ Nat.Prime n.toNat) :=
  isPrimeSingleThread_iff n

/-- C4: the Scheme A range assignments (chunk size N/W truncated, contiguous
blocks, final worker ending at N) are pairwise disjoint, their union is
exactly [1, N], and every assignment is non-empty whenever W ≤ N. -/
theorem C4_schemeA_partition (N W : Nat) (hW : 1 ≤ W) (hN : 2 ≤ N) :
    List.Pairwise (fun c c' : Nat × Nat =>
      ∀ j, c.1 ≤ j → j ≤ c.2 → ¬ (c'.1 ≤ j ∧ j ≤ c'.2)) (schemeAAssignments N W) ∧
    (∀ j, (1 ≤ j ∧ j ≤ N) ↔ ∃ c ∈ schemeAAssignments N W, c.1 ≤ j ∧ j ≤ c.2) ∧
    (W ≤ N → ∀ c ∈ schemeAAssignments N W, c.1 ≤ c.2) ∧
    (schemeAAssignments N W).length = W := by
  obtain ⟨hlen, hbounds, hcover, hpair, hne⟩ := schemeAAssignments_spec N W hW (by omega)
  refine ⟨hpair.imp ?_, fun j => ⟨fun hj => hcover j hj.1 hj.2, ?_⟩, hne, hlen⟩
  · rintro c c' hlt j hj1 hj2 ⟨hj3, _⟩
    omega
  · rintro ⟨c, hc, h1, h2⟩
    have := hbounds c hc
    omega

theorem C4_witness_30_4 :
    (1 ≤ 4) ∧ (2 ≤ 30) ∧
    (List.Pairwise (fun c c' : Nat × Nat =>
      ∀ j, c.1 ≤ j → j ≤ c.2 → ¬ (c'.1 ≤ j ∧ j ≤ c'.2)) (schemeAAssignments 30 4) ∧
    (∀ j, (1 ≤ j ∧ j ≤ 30) ↔ ∃ c ∈ schemeAAssignments 30 4, c.1 ≤ j ∧ j ≤ c.2) ∧
    (4 ≤ 30 → ∀ c ∈ schemeAAssignments 30 4, c.1 ≤ c.2) ∧
    (schemeAAssignments 30 4).length = 4) :=
  ⟨by decide, by decide, C4_schemeA_partition 30 4 (by decide) (by decide)⟩

/-- C5: contrary to the specified graceful rejection of non-positive worker
budgets, `isPrimeByDivisorThreads` has no guard: with W = 0 and a non-empty
divisor list (candidate 11) it reaches the division `totalDivs / numThreads`
with a zero divisor — undefined behaviour — and with W = -1 (candidate 121,
five divisors, no collapse) it reaches `threads.reserve(numThreads)`, which
throws an uncaught `std::length_error`.  Both abnormal ends are modelled as
`none`; neither is the invalid-configuration rejection the claim requires. -/
theorem C5_no_guard_for_nonpositive_workers :
    isPrimeByDivisorThreads 11 0 = none ∧
    isPrimeByDivisorThreads 121 (-1) = none :=
  ⟨rfl, rfl⟩

/-- C6: in deferred-sink mode the emitted list is sorted ascending, duplicate
free, and as a set equals what immediate mode prints for the same scheme, N
and W (the canonical discovery list of each scheme). -/
theorem C6_deferred_sorted_nodup_same_set (N : Nat) (W : Int) (hN : 2 ≤ N) (hW : 1 ≤ W) :
    (List.Sorted (· ≤ ·) (schemeADeferred N W.toNat) ∧
      (schemeADeferred N W.toNat).Nodup ∧
      (∀ x, x ∈ schemeADeferred N W.toNat ↔ x ∈ schemeAPrimes N W.toNat)) ∧
    (∃ L, runSchemeB N W = some L ∧
      schemeBDeferred N W = some (deferredOutput L) ∧
      List.Sorted (· ≤ ·) (deferredOutput L) ∧
      (deferredOutput L).Nodup ∧
      (∀ x, x ∈ deferredOutput L ↔ x ∈ L)) := by
  have hWn : 1 ≤ W.toNat := by omega
  obtain ⟨L, hL, _, hLnd⟩ := schemeB_list_spec N W hW
  exact ⟨⟨deferredOutput_sorted _,
      deferredOutput_nodup _ (nodup_schemeAPrimes N W.toNat hWn (by omega)),
      fun x => deferredOutput_mem _ x⟩,
    ⟨L, hL, by rw [schemeBDeferred, hL]; rfl, deferredOutput_sorted _,
      deferredOutput_nodup _ hLnd, fun x => deferredOutput_mem _ x⟩⟩

theorem C6_witness_30_4 :
    (2 ≤ 30) ∧ (1 ≤ (4 : Int)) ∧
    ((List.Sorted (· ≤ ·) (schemeADeferred 30 (4 : Int).toNat) ∧
      (schemeADeferred 30 (4 : Int).toNat).Nodup ∧
      (∀ x, x ∈ schemeADeferred 30 (4 : Int).toNat ↔ x ∈ schemeAPrimes 30 (4 : Int).toNat)) ∧
    (∃ L, runSchemeB 30 4 = some L ∧
      schemeBDeferred 30 4 = some (deferredOutput L) ∧
      List.Sorted (· ≤ ·) (deferredOutput L) ∧
      (deferredOutput L).Nodup ∧
      (∀ x, x ∈ deferredOutput L ↔ x ∈ L))) :=
  ⟨by decide, by decide, C6_deferred_sorted_nodup_same_set 30 4 (by decide) (by decide)⟩

/-- C7: within one divisor-partitioning invocation the shared CompositeFlag is
monotonic — no single step and no interleaving resets it — and a worker that
observes the flag set while checking stops at once, with its position
unchanged, never testing another divisor; returned workers stay returned. -/
theorem C7_composite_flag_protocol (n : Nat) (s s' : DivState) (h : DivStep n s s') :
    (s.flag = true → s'.flag = true) ∧
    (∀ s'', Relation.ReflTransGen (DivStep n) s' s'' → s'.flag = true → s''.flag = true) ∧
    (∀ (i : Nat) (w : WorkerSt), s.flag = true → s.workers[i]? = some w →
      w.phase = WPhase.check →
      s'.workers[i]? = some w ∨ s'.workers[i]? = some ⟨w.d, w.endDiv, WPhase.done⟩) ∧
    (∀ (i : Nat) (w : WorkerSt), s.workers[i]? = some w → w.phase = WPhase.done →
      s'.workers[i]? = some w) :=
  ⟨divStep_flag_mono n s s' h,
   fun s'' hst => divSteps_flag_mono n s' s'' hst,
   fun i w hf hw hph => divStep_check_stops n s s' i w h hf hw hph,
   fun i w hw hph => divStep_done_stays n s s' i w h hw hph⟩

theorem C7_witness_step :
    DivStep 9 ⟨true, [⟨3, 5, WPhase.check⟩]⟩ ⟨true, [⟨3, 5, WPhase.done⟩]⟩ ∧
    ((⟨true, [⟨3, 5, WPhase.check⟩]⟩ : DivState).flag = true →
      (⟨true, [⟨3, 5, WPhase.done⟩]⟩ : DivState).flag = true) := by
  have hstep : DivStep 9 ⟨true, [⟨3, 5, WPhase.check⟩]⟩ ⟨true, [⟨3, 5, WPhase.done⟩]⟩ :=
    DivStep.checkStop ⟨true, [⟨3, 5, WPhase.check⟩]⟩ 0 ⟨3, 5, WPhase.check⟩ rfl rfl rfl
  exact ⟨hstep, (C7_composite_flag_protocol 9 _ _ hstep).1⟩

/-- C8: a configuration missing the threads or maxNumber key, carrying a
malformed value, a non-positive thread count, or a bound of at most 1 makes
`readConfig` fail (prints a diagnostic and exits with status 1 in the source),
and the whole run aborts with that same error before any scheme does any
work. -/
theorem C8_config_errors_are_fatal (lines : List (List Char)) (choice : Nat)
    (hbad : (∀ l ∈ lines, ¬ threadsKey.isPrefixOf l = true) ∨
      (∀ l ∈ lines, ¬ maxNumberKey.isPrefixOf l = true) ∨
      (∃ l ∈ lines, threadsKey.isPrefixOf l = true ∧
        ∀ v, stolParse (l.drop 8) = some v → v ≤ 0) ∨
      (∃ l ∈ lines, maxNumberKey.isPrefixOf l = true ∧
        ∀ v, stolParse (l.drop 10) = some v → v ≤ 1)) :
    ∃ e, readConfig lines = .error e ∧ runModel lines choice = .error e := by
  have herr : ∃ e, readConfig lines = .error e := by
    rcases hbad with h | h | h | h
    · exact readConfigLoop_missing_threads lines none h
    · exact readConfigLoop_missing_max lines none h
    · exact readConfigLoop_bad_threads lines none none h
    · exact readConfigLoop_bad_max lines none none h
  obtain ⟨e, he⟩ := herr
  refine ⟨e, he, ?_⟩
  rw [runModel.eq_def, he]

theorem C8_witness_no_keys :
    ((∀ l ∈ [['x']], ¬ threadsKey.isPrefixOf l = true) ∨
      (∀ l ∈ [['x']], ¬ maxNumberKey.isPrefixOf l = true) ∨
      (∃ l ∈ [['x']], threadsKey.isPrefixOf l = true ∧
        ∀ v, stolParse (l.drop 8) = some v → v ≤ 0) ∨
      (∃ l ∈ [['x']], maxNumberKey.isPrefixOf l = true ∧
        ∀ v, stolParse (l.drop 10) = some v → v ≤ 1)) ∧
    (∃ e, readConfig [['x']] = .error e ∧ runModel [['x']] 1 = .error e) :=
  ⟨Or.inl (by decide), C8_config_errors_are_fatal [['x']] 1 (Or.inl (by decide))⟩

/-- C9: the truncated square-root limit never under-counts the true integer
square root; in particular for every prime p the candidate p² has limit
exactly p and is identified composite (n = 9 included), and n = 4 is rejected
by the even-check — even a worker budget of 0 or below never reaches a later
path for it. -/
theorem C9_sqrt_limit_boundary (p : Nat) (hp : Nat.Prime p) :
    (∀ m : Nat, Nat.sqrt m ≤ longSqrt m) ∧
    longSqrt (p * p) = p ∧
    isPrimeSingleThread ((p * p : Nat) : Int) = false ∧
    isPrimeSingleThread ((9 : Nat) : Int) = false ∧
    (∀ W : Int, isPrimeByDivisorThreads 4 W = some false) := by
  refine ⟨fun m => le_of_eq (longSqrt_eq_sqrt m).symm, ?_,
    prime_square_rejected p hp, ?_, fun W => rfl⟩
  · rw [longSqrt_eq_sqrt]
    have h := Nat.sqrt_eq' p
    rwa [pow_two] at h
  · exact prime_square_rejected 3 (by norm_num)

theorem C9_witness_3 :
    Nat.Prime 3 ∧
    ((∀ m : Nat, Nat.sqrt m ≤ longSqrt m) ∧
    longSqrt (3 * 3) = 3 ∧
    isPrimeSingleThread ((3 * 3 : Nat) : Int) = false ∧
    isPrimeSingleThread ((9 : Nat) : Int) = false ∧
    (∀ W : Int, isPrimeByDivisorThreads 4 W = some false)) :=
  ⟨by norm_num, C9_sqrt_limit_boundary 3 (by norm_num)⟩

/-- C10: in a divisor-partitioning invocation with W ≥ 1 and a non-empty
divisor list, a zero chunk size collapses the computation to one worker over
the whole list; otherwise exactly W workers are spawned (the break guard never
fires), with well-formed in-bounds chunks, and every odd divisor in [3, limit]
lies in the scan range of exactly one worker. -/
theorem C10_divisor_chunks_exact (limit : Nat) (W : Int) (hlim : 3 ≤ limit) (hW : 1 ≤ W) :
    (Int.tdiv ((buildDivisors limit).length : Int) W = 0 →
      divisorChunks (buildDivisors limit).length W = [(0, (buildDivisors limit).length - 1)]) ∧
    (Int.tdiv ((buildDivisors limit).length : Int) W ≠ 0 →
      (divisorChunks (buildDivisors limit).length W).length = W.toNat) ∧
    (∀ c ∈ divisorChunks (buildDivisors limit).length W,
      c.1 ≤ c.2 ∧ c.2 < (buildDivisors limit).length) ∧
    (∀ d ∈ buildDivisors limit,
      (divisorChunks (buildDivisors limit).length W).countP
        (fun c => decide ((buildDivisors limit).getD c.1 0 ≤ d ∧
          d ≤ (buildDivisors limit).getD c.2 0)) = 1) := by
  have hlen := length_buildDivisors limit
  have hL : 1 ≤ (buildDivisors limit).length := by omega
  have htd := tdiv_coe_coe (buildDivisors limit).length W hW
  obtain ⟨hbounds, hcover, hpair, hcollapse, hcount⟩ :=
    divisorChunks_cover (buildDivisors limit).length W hL hW
  refine ⟨?_, ?_, ?_, ?_⟩
  · intro h0
    apply hcollapse
    rw [htd] at h0
    exact_mod_cast h0
  · intro h0
    apply hcount
    intro hz
    apply h0
    rw [htd, hz]
    simp
  · intro c hc
    have := hbounds c hc
    omega
  · intro d hd
    obtain ⟨i, hi, hgi⟩ := List.mem_iff_getElem.1 hd
    have hgetDi : (buildDivisors limit).getD i 0 = 3 + 2 * i :=
      getD_buildDivisors limit i hi
    have hgiD : (buildDivisors limit).getD i 0 = d := by
      rw [List.getD_eq_getElem?_getD, List.getElem?_eq_getElem hi, hgi]
      rfl
    apply countP_eq_one_of
    · have hmem := List.Pairwise.and_mem.1 hpair
      refine hmem.imp ?_
      rintro c c' ⟨hcmem, hcmem', hlt⟩ ⟨hc1, hc2⟩
      simp only [decide_eq_true_eq] at hc1 hc2
      obtain ⟨hb1, hb2⟩ := hbounds c hcmem
      obtain ⟨hb1', hb2'⟩ := hbounds c' hcmem'
      have hg2 : (buildDivisors limit).getD c.2 0 = 3 + 2 * c.2 :=
        getD_buildDivisors limit c.2 (by omega)
      have hg1' : (buildDivisors limit).getD c'.1 0 = 3 + 2 * c'.1 :=
        getD_buildDivisors limit c'.1 (by omega)
      rw [hg2] at hc1
      rw [hg1'] at hc2
      omega
    · obtain ⟨c, hc, h1, h2⟩ := hcover i (by omega)
      refine ⟨c, hc, ?_⟩
      obtain ⟨hb1, hb2⟩ := hbounds c hc
      have hg1 : (buildDivisors limit).getD c.1 0 = 3 + 2 * c.1 :=
        getD_buildDivisors limit c.1 (by omega)
      have hg2 : (buildDivisors limit).getD c.2 0 = 3 + 2 * c.2 :=
        getD_buildDivisors limit c.2 (by omega)
      simp only [decide_eq_true_eq]
      rw [hg1, hg2, ← hgiD, hgetDi]
      omega

theorem C10_witness_7_2 :
    (3 ≤ 7) ∧ (1 ≤ (2 : Int)) ∧
    ((Int.tdiv ((buildDivisors 7).length : Int) 2 = 0 →
      divisorChunks (buildDivisors 7).length 2 = [(0, (buildDivisors 7).length - 1)]) ∧
    (Int.tdiv ((buildDivisors 7).length : Int) 2 ≠ 0 →
      (divisorChunks (buildDivisors 7).length 2).length = (2 : Int).toNat) ∧
    (∀ c ∈ divisorChunks (buildDivisors 7).length 2,
      c.1 ≤ c.2 ∧ c.2 < (buildDivisors 7).length) ∧
    (∀ d ∈ buildDivisors 7,
      (divisorChunks (buildDivisors 7).length 2).countP
        (fun c => decide ((buildDivisors 7).getD c.1 0 ≤ d ∧
          d ≤ (buildDivisors 7).getD c.2 0)) = 1)) :=
  ⟨by decide, by decide, C10_divisor_chunks_exact 7 2 (by decide) (by decide)⟩

end PrimeSearcher
